import Mathlib

/-!
Verification of the pi-subagents execution engine against its specification.

The definitions below are shallow embeddings of the TypeScript sources:
subagent-runner.ts (background runner), parallel-utils.ts (mapConcurrent,
flattenSteps, aggregateParallelOutputs), agent-management.ts (sanitizeName
and the create/update handlers), and the subagent tool dispatcher
(execute, handleResult).  Functions whose source file is not part of the
repository snapshot (utils.ts, types.ts, settings.ts, execution.ts) are
modelled from the specification and are marked as such in their doc
comments.
-/

namespace PiSub

/-! ## Character and string helpers (JS semantics) -/

/-- Whitespace test matching the JS regex class backslash-s on the ASCII range. -/
def isWS (c : Char) : Bool :=
  c = ' ' || c = '\t' || c = '\n' || c = '\r'

/-- Lowercasing of a single character, as String.prototype.toLowerCase acts on ASCII. -/
def jsToLower (c : Char) : Char := c.toLower

/-- Drop leading and trailing whitespace, as String.prototype.trim. -/
def trimWS (l : List Char) : List Char :=
  ((l.dropWhile isWS).reverse.dropWhile isWS).reverse

/-- True when the string has at least one non-whitespace character
(JS truthiness of s.trim()). -/
def nonBlank (s : String) : Bool := s.toList.any (fun c => !(isWS c))

/-- Replace every maximal run of characters satisfying p by the single
character rep (the JS regex replace of a one-class plus-quantified pattern). -/
def collapseRuns (p : Char → Bool) (rep : Char) : Bool → List Char → List Char
  | _, [] => []
  | inRun, c :: rest =>
    if p c then
      if inRun then collapseRuns p rep true rest
      else rep :: collapseRuns p rep true rest
    else c :: collapseRuns p rep false rest

/-- Characters kept by the management name sanitizer: a-z, 0-9 and hyphen. -/
def isNameChar (c : Char) : Bool :=
  ('a' ≤ c && c ≤ 'z') || ('0' ≤ c && c ≤ '9') || c = '-'

/-- Substring test on character lists (JS String.prototype.includes). -/
def containsSub : List Char → List Char → Bool
  | [], pat => pat.isEmpty
  | c :: rest, pat => pat.isPrefixOf (c :: rest) || containsSub rest pat

/-! ## sanitizeName (agent-management.ts) -/

/-- Embedding of sanitizeName from agent-management.ts:
name.toLowerCase().trim().replace(whitespace-run, hyphen)
.replace(non-name-char, empty).replace(hyphen-run, hyphen)
with leading and trailing hyphens removed. -/
def sanitizeName (s : String) : String :=
  let l1 := s.toList.map jsToLower
  let l2 := trimWS l1
  let l3 := collapseRuns isWS '-' false l2
  let l4 := l3.filter isNameChar
  let l5 := collapseRuns (fun c => c = '-') '-' false l4
  ⟨(( l5.dropWhile (fun c => c = '-')).reverse.dropWhile (fun c => c = '-')).reverse⟩

/-- The sanitized form as the claim describes it: lowercased, every
character outside a-z0-9-hyphen stripped, runs of hyphens collapsed.
This definition follows the words of the specification and is compared
against sanitizeName, which is translated from the source. -/
def claimSanitize (s : String) : String :=
  ⟨collapseRuns (fun c => c = '-') '-' false ((s.toList.map jsToLower).filter isNameChar)⟩

/-! ## Filesystem operations and writeJson (subagent-runner.ts) -/

/-- A filesystem operation as performed by the runner and the management
handlers. -/
inductive FsOp where
  | mkdirRec (dir : String)
  | writeFile (path content : String)
  | rename (src dst : String)
deriving DecidableEq, Repr

/-- Directory part of a path, as path.dirname for a path containing a slash. -/
def dirname (p : String) : String :=
  ⟨((p.toList.reverse.dropWhile (fun c => c ≠ '/')).drop 1).reverse⟩

/-- Embedding of writeJson from subagent-runner.ts: mkdirSync on the
parent directory followed by a direct writeFileSync of the payload to
the target path. -/
def writeJsonOps (filePath payload : String) : List FsOp :=
  [FsOp.mkdirRec (dirname filePath), FsOp.writeFile filePath payload]

/-- The atomic-write discipline the claim asserts: the payload goes to a
temporary file which is then renamed over the target, and the target is
never written directly.  This definition follows the words of the
specification and is compared against writeJsonOps. -/
def atomicTmpRename (ops : List FsOp) (target : String) : Prop :=
  (∃ tmp payload i j, tmp ≠ target ∧ i < j ∧
      ops.get? i = some (FsOp.writeFile tmp payload) ∧
      ops.get? j = some (FsOp.rename tmp target)) ∧
  ∀ c, FsOp.writeFile target c ∉ ops

/-! ## Management create and update (agent-management.ts) -/

/-- Error kinds returned by handleCreate and handleUpdate before any
filesystem mutation, plus the rename-collision error. -/
inductive MgmtErr where
  | badName
  | emptySanitized
  | badScope
  | nameTaken
  | fileCollision
  | renameBlocked
deriving DecidableEq, Repr

/-- Result of a management create or update. -/
inductive MgmtResult where
  | error (e : MgmtErr)
  | done (storedName : String)
deriving DecidableEq, Repr

/-- Embedding of the handleCreate agent path from agent-management.ts:
config checks, name sanitization with empty-name rejection, scope check,
then mkdir of the target directory, uniqueness and collision checks, and
finally the file write.  Returns the outcome and the filesystem
operations performed, in order. -/
def handleCreateModel (rawName : String) (scopeOk : Bool)
    (nameTaken fileCollides : Bool) (targetDir payload : String) :
    MgmtResult × List FsOp :=
  if !(nonBlank rawName) then (.error .badName, [])
  else
    let name := sanitizeName rawName
    if name = "" then (.error .emptySanitized, [])
    else if !scopeOk then (.error .badScope, [])
    else
      let mk := FsOp.mkdirRec targetDir
      if nameTaken then (.error .nameTaken, [mk])
      else if fileCollides then (.error .fileCollision, [mk])
      else
        (.done name,
          [mk, FsOp.writeFile (targetDir ++ "/" ++ name ++ ".md") payload])

/-- Embedding of the handleUpdate agent rename path from
agent-management.ts: the new name is validated and sanitized (empty
sanitized name is rejected) before any filesystem mutation; the rename
and the serialize-write happen last. -/
def handleUpdateModel (hasNameKey : Bool) (rawName oldName : String)
    (renameBlocked : Bool) (oldPath newPath payload : String) :
    MgmtResult × List FsOp :=
  if hasNameKey && !(nonBlank rawName) then (.error .badName, [])
  else if hasNameKey && sanitizeName rawName = "" then (.error .emptySanitized, [])
  else
    let newName := if hasNameKey then sanitizeName rawName else oldName
    if newName ≠ oldName then
      if renameBlocked then (.error .renameBlocked, [])
      else (.done newName, [FsOp.rename oldPath newPath, FsOp.writeFile newPath payload])
    else (.done newName, [FsOp.writeFile oldPath payload])

/-! ## Dispatcher routing (subagent tool execute) -/

/-- The five management actions accepted by the dispatcher. -/
def validActions : List String := ["list", "get", "create", "update", "delete"]

/-- Outcome of the dispatch prefix of execute. -/
inductive DispatchOutcome where
  | managementHandled (action : String)
  | unknownActionError
  | depthBlockedError
  | execution
deriving DecidableEq, Repr

/-- Embedding of the dispatch prefix of the subagent tool execute
function: when params.action is present the request is routed to the
management handler (or an unknown-action error) before the depth guard
is consulted; only requests without an action reach the depth guard. -/
def executeDispatch (action : Option String) (depthBlocked : Bool) :
    DispatchOutcome :=
  match action with
  | some a =>
    if validActions.contains a then .managementHandled a else .unknownActionError
  | none =>
    if depthBlocked then .depthBlockedError else .execution

/-! ## Agent-existence validation (subagent tool execute) -/

/-- A chain step of an execution request, as far as referenced agent
names are concerned. -/
inductive ReqChainStep where
  | seq (agent : String)
  | par (agents : List String)
deriving DecidableEq, Repr

/-- Modelled from the spec: getStepAgents (settings.ts, not in the
snapshot) returns the agent names referenced by a chain step, one name
for a sequential step and all inner names for a parallel step. -/
def getStepAgents : ReqChainStep → List String
  | .seq a => [a]
  | .par as => as

/-- An execution request restricted to the referenced agent names.  A
single request carries whether it takes the background branch of
execute (effectiveAsync true), since that branch performs its own agent
lookup with a different error message. -/
inductive ExecReq where
  | single (agent : String) (isAsync : Bool)
  | parallel (agents : List String)
  | chain (steps : List ReqChainStep)
deriving DecidableEq, Repr

/-- All agent names referenced by a request. -/
def refAgents : ExecReq → List String
  | .single a _ => [a]
  | .parallel ts => ts
  | .chain steps => (steps.map getStepAgents).flatten

/-- First unknown agent of a parallel request, with its error message,
as the validation loop in execute. -/
def firstUnknownPar (known : List String) : List String → Option String
  | [] => none
  | a :: rest =>
    if known.contains a then firstUnknownPar known rest
    else some ("Unknown agent: " ++ a)

/-- First unknown agent of a chain request, with its error message
naming the one-based step index, as the validation loop in execute. -/
def firstUnknownChain (known : List String) : Nat → List ReqChainStep → Option String
  | _, [] => none
  | i, step :: rest =>
    match (getStepAgents step).find? (fun a => !(known.contains a)) with
    | some a => some ("Unknown agent: " ++ a ++ " (step " ++ toString (i + 1) ++ ")")
    | none => firstUnknownChain known (i + 1) rest

/-- Embedding of the agent-existence validation of execute: the
parallel and chain paths, and the synchronous single path, return an
error of the form Unknown agent: name (chain errors also name the
step); the background single branch of execute performs its own lookup
and returns the shorter message Unknown: name. -/
def validateAgentsMsg (known : List String) : ExecReq → Option String
  | .single a isAsync =>
    if known.contains a then none
    else if isAsync then some ("Unknown: " ++ a)
    else some ("Unknown agent: " ++ a)
  | .parallel ts => firstUnknownPar known ts
  | .chain steps => firstUnknownChain known 0 steps

/-! ## Background registry result handler (subagent tool handleResult) -/

/-- JS truthiness of an optional string field: present and non-empty. -/
def truthy : Option String → Bool
  | some s => s ≠ ""
  | none => false

/-- Embedding of handleResult from the subagent tool: a parsed result
whose sessionId is truthy and differs from the current session id is
ignored, as is one without a truthy sessionId whose cwd is truthy and
differs from the registry base cwd; otherwise the completion is either
suppressed by the dedup map (file deleted, no event) or dispatched
(event emitted, file deleted).  The returned pair is
(event emitted, file deleted). -/
def handleResultModel (sessionId cwd : Option String)
    (currentSessionId : Option String) (baseCwd : String)
    (dedupSeen : Bool) : Bool × Bool :=
  if truthy sessionId && sessionId ≠ currentSessionId then (false, false)
  else if !(truthy sessionId) && truthy cwd && cwd ≠ some baseCwd then (false, false)
  else if dedupSeen then (false, true)
  else (true, true)

/-! ## Error-detection heuristic (utils.ts, modelled from the spec) -/

/-- One content part of a recorded assistant message. -/
inductive APart where
  | text (s : String)
  | toolCall
deriving DecidableEq, Repr

/-- A recorded message of a subagent run: an assistant message with its
parts, or a tool result with its tool name, text and error flag. -/
inductive Message where
  | assistant (parts : List APart)
  | toolResult (toolName text : String) (isError : Bool)
deriving DecidableEq, Repr

/-- Whether a content part is non-whitespace text. -/
def partNonBlank : APart → Bool
  | .text s => nonBlank s
  | .toolCall => false

/-- Whether a message is an assistant message containing non-whitespace
text (tool-call-only assistant messages do not count). -/
def isTextMsg : Message → Bool
  | .assistant parts => parts.any partNonBlank
  | .toolResult _ _ _ => false

/-- The exit-code marker scanned for in bash output. -/
def exitMarker : List Char := "exited with code ".toList

/-- Parse the leading decimal digits of a character list. -/
def parseLeadingNat (l : List Char) : Option Nat :=
  let ds := l.takeWhile Char.isDigit
  if ds.isEmpty then none
  else some (ds.foldl (fun n c => n * 10 + (c.toNat - 48)) 0)

/-- Find an exit-code marker in a character list and parse the code
following it. -/
def findExitCode : List Char → Option Nat
  | [] => none
  | c :: rest =>
    if exitMarker.isPrefixOf (c :: rest) then
      match parseLeadingNat ((c :: rest).drop exitMarker.length) with
      | some k => some k
      | none => findExitCode rest
    else findExitCode rest

/-- Modelled from the spec: the bash-specific fatal patterns of
detectSubagentError (utils.ts is not in the snapshot): a
permission-denied line, a segmentation fault, or an exit-code marker
(spec section 4.11, reconstructed together with detect-error.test.ts). -/
def bashFatal (text : String) : Bool :=
  containsSub text.toList "permission denied".toList
  || containsSub text.toList "segmentation fault".toList
  || (findExitCode text.toList).isSome

/-- Information about a detected tool error. -/
structure ErrInfo where
  errorType : String
  details : String
  exitCode : Option Nat
deriving DecidableEq, Repr

/-- Modelled from the spec: whether one recorded tool result counts as
an error: an isError flag, or a tool-name-specific fatal pattern. -/
def toolResultErr (toolName text : String) (isErr : Bool) : Option ErrInfo :=
  let code := if toolName = "bash" then findExitCode text.toList else none
  if isErr then some ⟨toolName, text, code⟩
  else if toolName = "bash" && bashFatal text then some ⟨"bash", text, code⟩
  else none

/-- The error carried by a message, when it is an error-bearing tool
result. -/
def msgErr : Message → Option ErrInfo
  | .toolResult tn tx ie => toolResultErr tn tx ie
  | .assistant _ => none

/-- Index of the last assistant message with non-whitespace text,
defined by structural recursion from the right. -/
def lastTextIdxR : List Message → Option Nat
  | [] => none
  | m :: rest =>
    match lastTextIdxR rest with
    | some j => some (j + 1)
    | none => if isTextMsg m then some 0 else none

/-- First error-bearing tool result of a message list. -/
def firstErrIn : List Message → Option ErrInfo
  | [] => none
  | m :: rest =>
    match msgErr m with
    | some e => some e
    | none => firstErrIn rest

/-- Result of the error-detection heuristic. -/
structure DetectResult where
  hasError : Bool
  errorType : Option String
  details : Option String
  exitCode : Option Nat
deriving DecidableEq, Repr

/-- Modelled from the spec: detectSubagentError (utils.ts is not in the
snapshot; spec section 4.11): find the index of the last assistant
message with non-whitespace text and scan only the messages after it
(the whole stream when there is none); the first error-bearing tool
result found there decides the outcome. -/
def detectSubagentError (ms : List Message) : DetectResult :=
  let tail :=
    match lastTextIdxR ms with
    | some i => ms.drop (i + 1)
    | none => ms
  match firstErrIn tail with
  | some e => ⟨true, some e.errorType, some e.details, e.exitCode⟩
  | none => ⟨false, none, none, none⟩

/-- The claim's declarative characterisation of a failed stream: some
message is an error-bearing tool result and every assistant message
with non-whitespace text occurs strictly before it. -/
def specHasError (ms : List Message) : Prop :=
  ∃ (j : Nat) (m : Message), ms[j]? = some m ∧ (msgErr m).isSome = true ∧
    ∀ (k : Nat) (mk : Message), ms[k]? = some mk → isTextMsg mk = true → k < j

/-! ## Parallel utilities (parallel-utils.ts) -/

/-- Entry of a parallel aggregation, as passed to
aggregateParallelOutputs. -/
structure AggEntry where
  agent : String
  output : String
  exitCode : Option Int
  error : Option String
deriving DecidableEq, Repr

/-- Rendering of an exit code, where none stands for the null produced
by a signal-terminated child. -/
def numToStr : Option Int → String
  | none => "null"
  | some k => toString k

/-- Body of one aggregation block, as computed inside
aggregateParallelOutputs: skipped when the exit code is minus one,
failed on any other non-zero exit, empty-output warning on blank
output, else the output itself. -/
def aggBody (r : AggEntry) : String :=
  let hasOutput := nonBlank r.output
  let status :=
    if r.exitCode = some (-1) then "⏭️ SKIPPED"
    else if r.exitCode ≠ some 0 then
      "⚠️ FAILED (exit code " ++ numToStr r.exitCode ++ ")"
        ++ (match r.error with | some e => ": " ++ e | none => "")
    else if !hasOutput then "⚠️ EMPTY OUTPUT"
    else ""
  if status ≠ "" then (if hasOutput then status ++ "\n" ++ r.output else status)
  else r.output

/-- Embedding of aggregateParallelOutputs from parallel-utils.ts. -/
def aggregateParallelOutputs (results : List AggEntry) : String :=
  String.intercalate "\n\n"
    (results.mapIdx (fun i r =>
      "=== Parallel Task " ++ toString (i + 1) ++ " (" ++ r.agent ++ ") ===\n"
        ++ aggBody r))

/-- Embedding of the concurrency clamp in mapConcurrent: the limit is
floored, a falsy floor (zero or NaN, the latter modelled as none)
becomes one, and the result is clamped to at least one. -/
def safeLimit : Option Int → Nat
  | none => 1
  | some n => if n = 0 then 1 else (max 1 n).toNat

/-- State of the mapConcurrent worker pool: the shared next-index
counter, the indices currently being processed, the number of workers
at the loop head, and the shared results array. -/
structure MCState (R : Type) where
  next : Nat
  inFlight : List Nat
  idle : Nat
  results : List (Option R)
deriving DecidableEq, Repr

/-- Initial mapConcurrent state: no index claimed, W workers spawned,
one result slot per item. -/
def mcInit (R : Type) (n W : Nat) : MCState R :=
  ⟨0, [], W, List.replicate n none⟩

/-- A scheduler action on the worker pool: a worker claims the next
index and begins processing it, a worker finishes the index it is
processing, or a worker observes that no index is left and exits. -/
inductive MCAct where
  | start
  | finish (i : Nat)
  | exit
deriving DecidableEq, Repr

/-- Embedding of one scheduling step of mapConcurrent: start mirrors
the claim of an index inside the worker loop, finish mirrors the
completion of the awaited worker function writing its slot of the
results array, exit mirrors a worker leaving the loop. -/
def mcApply {T R : Type} (items : List T) (f : Nat → T → R)
    (s : MCState R) : MCAct → Option (MCState R)
  | .start =>
    if 0 < s.idle ∧ s.next < items.length then
      some ⟨s.next + 1, s.next :: s.inFlight, s.idle - 1, s.results⟩
    else none
  | .finish i =>
    if i ∈ s.inFlight then
      match items[i]? with
      | some t =>
        some ⟨s.next, s.inFlight.erase i, s.idle + 1, s.results.set i (some (f i t))⟩
      | none => none
    else none
  | .exit =>
    if 0 < s.idle ∧ items.length ≤ s.next then
      some ⟨s.next, s.inFlight, s.idle - 1, s.results⟩
    else none

/-- Run a sequence of scheduler actions on the worker pool. -/
def mcRun {T R : Type} (items : List T) (f : Nat → T → R) :
    List MCAct → MCState R → Option (MCState R)
  | [], s => some s
  | a :: acts, s =>
    match mcApply items f s a with
    | some s2 => mcRun items f acts s2
    | none => none

/-- Embedding of mapConcurrent from parallel-utils.ts: the clamped
limit bounds the worker count, Promise.all spawns
min(safeLimit, items.length) workers, and the scheduler interleaving is
abstracted as the action sequence acts. -/
def mapConcurrentRun {T R : Type} (limit : Option Int) (items : List T)
    (f : Nat → T → R) (acts : List MCAct) : Option (MCState R) :=
  mcRun items f acts (mcInit R items.length (min (safeLimit limit) items.length))

/-- A finished pool: every worker has exited and nothing is in flight. -/
def mcTerminal {R : Type} (s : MCState R) : Prop :=
  s.idle = 0 ∧ s.inFlight = []

/-- Invariant of the worker pool: the results array keeps its size, the
counter never passes the item count, in-flight indices are distinct
claimed indices, every written slot holds the worker function applied
to its item, every claimed index is in flight or written, the busy and
idle workers never exceed the pool size W, and workers only die out
once the counter has passed the item count. -/
def MCInv {T R : Type} (items : List T) (f : Nat → T → R) (W : Nat)
    (s : MCState R) : Prop :=
  s.results.length = items.length ∧
  s.next ≤ items.length ∧
  (∀ i ∈ s.inFlight, i < s.next) ∧
  s.inFlight.Nodup ∧
  (∀ i r, s.results[i]? = some (some r) → ∃ t, items[i]? = some t ∧ r = f i t) ∧
  (∀ i, i < s.next → i ∈ s.inFlight ∨ ∃ r, s.results[i]? = some (some r)) ∧
  (s.inFlight.length + s.idle ≤ W) ∧
  (items.length ≤ s.next ∨ 0 < s.idle + s.inFlight.length)

/-! ## Top-level parallel execution (subagent tool execute) -/

/-- A top-level parallel task, restricted to its agent name. -/
structure PTask where
  agent : String
deriving DecidableEq, Repr

/-- A step result, restricted to the fields the parallel claims use. -/
structure SingleResultM where
  agent : String
  exitCode : Option Int
deriving DecidableEq, Repr

/-- Modelled from the spec: runSync (execution.ts is not in the
snapshot) runs one agent and returns the StepResult of that agent; the
exit code of the spawned runner is abstracted by the oracle exitOf. -/
def runSyncModel (exitOf : Nat → Option Int) (i : Nat) (t : PTask) : SingleResultM :=
  ⟨t.agent, exitOf i⟩

/-- Modelled from the spec: MAX_CONCURRENCY is 4 (types.ts is not in
the snapshot). -/
def MAX_CONCURRENCY : Int := 4

/-- Modelled from the spec: MAX_PARALLEL is 16 (types.ts is not in the
snapshot). -/
def MAX_PARALLEL : Nat := 16

/-- Embedding of the parallel branch of execute: the validated tasks
run through mapConcurrent with the MAX_CONCURRENCY bound; acts is the
scheduler interleaving. -/
def runParallelExec (exitOf : Nat → Option Int) (tasks : List PTask)
    (acts : List MCAct) : Option (MCState SingleResultM) :=
  mapConcurrentRun (some MAX_CONCURRENCY) tasks (runSyncModel exitOf) acts

/-! ## Background runner status rows and parallel groups
(subagent-runner.ts) -/

/-- Status of one flattened step row in status.json. -/
inductive StepStatus where
  | pending
  | running
  | complete
  | failed
deriving DecidableEq, Repr

/-- One flattened step row of status.json.  The exitCode field is
doubly optional: the outer layer records whether the field has been
written at all, the inner layer is the number-or-null exit code. -/
structure StepRow where
  agent : String
  status : StepStatus
  startedAt : Option Nat
  endedAt : Option Nat
  exitCode : Option (Option Int)
deriving DecidableEq, Repr

/-- A fresh pending row, as built for the initial status payload. -/
def pendingRow (agent : String) : StepRow :=
  ⟨agent, .pending, none, none, none⟩

/-- Result of one inner task of a parallel group, as produced by the
mapConcurrent callback in runSubagent. -/
structure GroupStepRes where
  agent : String
  output : String
  exitCode : Option Int
  skipped : Bool
deriving DecidableEq, Repr

/-- The body given to a fail-fast-skipped inner task. -/
def skipOutput : String := "(skipped — fail-fast)"

/-- The skipped result returned by the callback once the group is
aborted under fail-fast. -/
def skipRes (agent : String) : GroupStepRes :=
  ⟨agent, skipOutput, some (-1), true⟩

/-- The result of an inner task that actually ran. -/
def runRes (exitOf : Nat → Option Int) (outOf : Nat → String)
    (fi : Nat) (agent : String) : GroupStepRes :=
  ⟨agent, outOf fi, exitOf fi, false⟩

/-- Update one row of the status steps array in place, as the direct
index assignments of the callback. -/
def updateRow (rows : List StepRow) (i : Nat) (g : StepRow → StepRow) :
    List StepRow :=
  match rows[i]? with
  | some r => rows.set i (g r)
  | none => rows

/-- The end-of-task row update performed by the callback: complete on
exit zero, failed otherwise, with end time and exit code recorded. -/
def finishRow (ec : Option Int) (endT : Nat) (r : StepRow) : StepRow :=
  { r with
    status := if ec = some 0 then .complete else .failed,
    endedAt := some endT,
    exitCode := some ec }

/-- Embedding of the group-start loop in runSubagent: every row of the
group is marked running with the group start time. -/
def markGroupRunning (ts g0 n : Nat) (rows : List StepRow) : List StepRow :=
  rows.mapIdx (fun i r =>
    if g0 ≤ i && i < g0 + n then { r with status := .running, startedAt := some ts }
    else r)

/-- Embedding of the mapConcurrent callback of a parallel group in
runSubagent under the concurrency-one schedule: tasks are processed in
input order; once aborted under fail-fast, a task returns the skipped
result immediately and performs no status update; otherwise the task
runs, its row is finished, and a non-zero exit with fail-fast sets the
abort flag for the tasks that follow. -/
def runGroupAux (failFast : Bool) (exitOf : Nat → Option Int)
    (outOf : Nat → String) (endOf : Nat → Nat) :
    List (Nat × String) → Bool → List StepRow → List GroupStepRes × List StepRow
  | [], _, rows => ([], rows)
  | (fi, agent) :: rest, aborted, rows =>
    if aborted && failFast then
      let p := runGroupAux failFast exitOf outOf endOf rest aborted rows
      (skipRes agent :: p.1, p.2)
    else
      let ec := exitOf fi
      let rows1 := updateRow rows fi (finishRow ec (endOf fi))
      let aborted1 := aborted || (decide (ec ≠ some 0) && failFast)
      let p := runGroupAux failFast exitOf outOf endOf rest aborted1 rows1
      (runRes exitOf outOf fi agent :: p.1, p.2)

/-- Embedding of a full parallel group of runSubagent under the
concurrency-one schedule: rows of the group are marked running at the
group start, then the tasks are processed in order starting from flat
index g0. -/
def runGroupModel (failFast : Bool) (exitOf : Nat → Option Int)
    (outOf : Nat → String) (endOf : Nat → Nat) (ts g0 : Nat)
    (agents : List String) (rows : List StepRow) :
    List GroupStepRes × List StepRow :=
  let rows0 := markGroupRunning ts g0 agents.length rows
  runGroupAux failFast exitOf outOf endOf
    (agents.mapIdx (fun t a => (g0 + t, a))) false rows0

/-! ## Background runner write trace (subagent-runner.ts) -/

/-- The state field of status.json (the queued state is never written
by the runner, whose initial write is already running). -/
inductive RunState where
  | running
  | complete
  | failed
deriving DecidableEq, Repr

/-- A durable write performed by runSubagent, in program order: a
status.json write carrying its state field, an events.jsonl append, the
markdown log write, or the terminal result-file write. -/
inductive RunEv where
  | writeStatus (st : RunState)
  | appendEvents
  | writeLog
  | writeResult
deriving DecidableEq, Repr

/-- A runner step: sequential, or a parallel group. -/
inductive RunnerStep where
  | seq (agent : String)
  | par (agents : List String) (failFast : Bool)
deriving DecidableEq, Repr

/-- Embedding of flattenSteps from parallel-utils.ts, restricted to the
agent names. -/
def flattenAgents : List RunnerStep → List String
  | [] => []
  | .seq a :: rest => a :: flattenAgents rest
  | .par as _ :: rest => as ++ flattenAgents rest

/-- Writes of one sequential step: the step-start status write and
event, then the step-end status write and event.  The state field is
still running at both writes. -/
def seqStepEvents : List RunEv :=
  [.writeStatus .running, .appendEvents, .writeStatus .running, .appendEvents]

/-- Writes of one executed inner task of a parallel group: its started
event, its end-of-task status write (state still running), and its
completed-or-failed event. -/
def taskBlock : List RunEv :=
  [.appendEvents, .writeStatus .running, .appendEvents]

/-- Writes of a parallel group: the group-start status write and event,
the blocks of the executed tasks in completion order (sched lists the
executed tasks; fail-fast-skipped tasks write nothing), the token
aggregation status write when a session directory is configured, and
the group-completed event. -/
def groupEvents (hasSession : Bool) (sched : List Nat) : List RunEv :=
  [.writeStatus .running, .appendEvents]
    ++ (sched.map (fun _ => taskBlock)).flatten
    ++ (if hasSession then [.writeStatus .running] else [])
    ++ [.appendEvents]

/-- Whether every inner task of a group ran and exited zero, so that
the group contributes only successful results. -/
def groupOk (exitOf : Nat → Option Int) (fi n : Nat) (sched : List Nat) : Bool :=
  (List.range n).all (fun t => sched.contains t && decide (exitOf (fi + t) = some 0))

/-- Whether some executed inner task of a group failed with an exit
code that is neither zero nor the skip marker, which stops the chain
after the group. -/
def groupHardFail (exitOf : Nat → Option Int) (fi : Nat) (sched : List Nat) : Bool :=
  sched.any (fun t =>
    decide (exitOf (fi + t) ≠ some 0) && decide (exitOf (fi + t) ≠ some (-1)))

/-- Embedding of the step loop of runSubagent as its sequence of
durable writes, together with the overall success flag: sequential
steps break the loop on non-zero exit, parallel groups break it on a
hard failure.  schedOf gives, per group (keyed by its first flat
index), the executed tasks in completion order. -/
def loopEvents (exitOf : Nat → Option Int) (hasSession : Bool)
    (schedOf : Nat → List Nat) : Nat → List RunnerStep → List RunEv × Bool
  | _, [] => ([], true)
  | fi, .seq _ :: rest =>
    if exitOf fi = some 0 then
      let p := loopEvents exitOf hasSession schedOf (fi + 1) rest
      (seqStepEvents ++ p.1, p.2)
    else (seqStepEvents, false)
  | fi, .par as _ :: rest =>
    let ev := groupEvents hasSession (schedOf fi)
    if groupHardFail exitOf fi (schedOf fi) then (ev, false)
    else
      let p := loopEvents exitOf hasSession schedOf (fi + as.length) rest
      (ev ++ p.1, groupOk exitOf fi as.length (schedOf fi) && p.2)

/-- Embedding of runSubagent as its sequence of durable writes: the
initial status write (state running) and run-started event, the step
loop, the terminal status write whose state is complete exactly when
every collected result succeeded, the run-completed event, the
markdown log, and last the result file. -/
def runSubagentTrace (steps : List RunnerStep) (exitOf : Nat → Option Int)
    (hasSession : Bool) (schedOf : Nat → List Nat) : List RunEv :=
  let p := loopEvents exitOf hasSession schedOf 0 steps
  [.writeStatus .running, .appendEvents] ++ p.1
    ++ [.writeStatus (if p.2 then .complete else .failed),
        .appendEvents, .writeLog, .writeResult]

/-- The state carried by the most recent status.json write of a write
sequence. -/
def lastStatus (evs : List RunEv) : Option RunState :=
  evs.foldl (fun acc e => match e with | .writeStatus st => some st | _ => acc) none

/-! # Theorems -/

/-- C4 counterexample: the status.json writer of subagent-runner.ts
writes its target in place via writeFileSync and performs no rename, so
already the initial status update of a run is not a write-temporary-
then-rename atomic update as the claim asserts. -/
theorem writeJson_not_atomic_counterexample :
    ¬ atomicTmpRename (writeJsonOps "/tmp/job/status.json" "payload")
        "/tmp/job/status.json" := by
  intro h
  exact h.2 "payload" (by decide)

/-- C4 amended: every status.json update of the runner goes through
writeJson, which creates the parent directory and then writes the
payload directly, in place, to the target path; no write of a temporary
file followed by a rename is involved. -/
theorem writeJson_in_place (path payload : String) :
    FsOp.writeFile path payload ∈ writeJsonOps path payload ∧
    ∀ src dst, FsOp.rename src dst ∉ writeJsonOps path payload := by
  constructor
  · simp [writeJsonOps]
  · intro src dst h
    simp [writeJsonOps] at h

/-- Witness for the C4 amended theorem at a concrete path and payload. -/
theorem writeJson_in_place_witness :
    FsOp.writeFile "/a/status.json" "p" ∈ writeJsonOps "/a/status.json" "p" ∧
    FsOp.rename "/a/tmp" "/a/status.json" ∉ writeJsonOps "/a/status.json" "p" :=
  ⟨(writeJson_in_place "/a/status.json" "p").1,
   (writeJson_in_place "/a/status.json" "p").2 "/a/tmp" "/a/status.json"⟩

/-- C8 counterexample: creating an agent named "my agent" stores the
name "my-agent" (the sanitizer converts interior whitespace to a
hyphen), while the sanitized form described by the claim, which only
lowercases, strips characters outside the allowed class and collapses
hyphen runs, would give "myagent". -/
theorem sanitizeName_counterexample :
    (handleCreateModel "my agent" true false false "/dir" "P").1
      = MgmtResult.done "my-agent" ∧
    claimSanitize "my agent" = "myagent" ∧
    sanitizeName "my agent" ≠ claimSanitize "my agent" := by
  decide

/-- C8 amended: for management create and update the stored name is
sanitizeName of the input — lowercased and trimmed, whitespace runs
converted to a hyphen, characters outside lowercase letters, digits and
hyphens stripped, hyphen runs collapsed, and leading or trailing
hyphens removed — and when the sanitized name is empty (or the raw name
is blank) the operation returns an error having performed no filesystem
operation. -/
theorem sanitize_store_amended (raw : String)
    (scopeOk nameTaken fileCollides : Bool) (targetDir payload : String)
    (oldName : String) (renameBlocked : Bool) (oldPath newPath payload2 : String) :
    (sanitizeName raw = "" →
      ((handleCreateModel raw scopeOk nameTaken fileCollides targetDir payload).2 = [] ∧
        ∃ e, (handleCreateModel raw scopeOk nameTaken fileCollides targetDir payload).1
          = MgmtResult.error e) ∧
      ((handleUpdateModel true raw oldName renameBlocked oldPath newPath payload2).2 = [] ∧
        ∃ e, (handleUpdateModel true raw oldName renameBlocked oldPath newPath payload2).1
          = MgmtResult.error e)) ∧
    (∀ name,
      (handleCreateModel raw scopeOk nameTaken fileCollides targetDir payload).1
        = MgmtResult.done name → name = sanitizeName raw) ∧
    (∀ name,
      (handleUpdateModel true raw oldName renameBlocked oldPath newPath payload2).1
        = MgmtResult.done name → name = sanitizeName raw) := by
  refine ⟨?_, ?_, ?_⟩
  · intro hempty
    constructor
    · unfold handleCreateModel
      by_cases hb : nonBlank raw = true
      · simp [hb, hempty]
      · simp [Bool.not_eq_true] at hb
        simp [hb]
    · unfold handleUpdateModel
      by_cases hb : nonBlank raw = true
      · simp [hb, hempty]
      · simp [Bool.not_eq_true] at hb
        simp [hb]
  · intro name h
    unfold handleCreateModel at h
    by_cases he : sanitizeName raw = "" <;> split_ifs at h <;> simp_all
  · intro name h
    unfold handleUpdateModel at h
    by_cases he : sanitizeName raw = "" <;>
      by_cases ho : sanitizeName raw = oldName <;>
      split_ifs at h <;> simp_all

/-- Witness for the C8 amended theorem: the raw name "!!!" sanitizes to
the empty string and both operations error without filesystem writes;
the raw name "My Agent" creates the stored name my-agent. -/
theorem sanitize_store_amended_witness :
    ((handleCreateModel "!!!" true false false "/d" "P").2 = [] ∧
      ∃ e, (handleCreateModel "!!!" true false false "/d" "P").1 = MgmtResult.error e) ∧
    ((handleUpdateModel true "!!!" "old" false "/o" "/n" "P").2 = [] ∧
      ∃ e, (handleUpdateModel true "!!!" "old" false "/o" "/n" "P").1 = MgmtResult.error e) ∧
    ("my-agent" : String) = sanitizeName "My Agent" := by
  have h1 := (sanitize_store_amended "!!!" true false false "/d" "P" "old" false "/o" "/n" "P").1
    (by decide)
  have h2 := (sanitize_store_amended "My Agent" true false false "/d" "P" "old" false "/o" "/n" "P").2.1
    "my-agent" (by decide)
  exact ⟨h1.1, h1.2, h2⟩

/-- C9: a request carrying a management action is routed to the
management handler before the depth guard is consulted, for every depth
state, so management actions run even at the maximum depth; the
nested-call-blocked error can only arise for an execution request,
one without an action. -/
theorem management_routes_before_depth_guard (a : String) (depthBlocked : Bool)
    (ha : validActions.contains a = true) :
    executeDispatch (some a) depthBlocked = DispatchOutcome.managementHandled a ∧
    ∀ o d, executeDispatch o d = DispatchOutcome.depthBlockedError →
      o = none ∧ d = true := by
  constructor
  · simp only [executeDispatch]
    rw [if_pos ha]
  · intro o d h
    cases o with
    | none =>
      simp only [executeDispatch] at h
      by_cases hd : d = true
      · exact ⟨rfl, hd⟩
      · rw [if_neg hd] at h
        simp at h
    | some b =>
      simp only [executeDispatch] at h
      by_cases hb : validActions.contains b = true
      · rw [if_pos hb] at h
        simp at h
      · rw [if_neg hb] at h
        simp at h

/-- Witness for C9 at the create action with the depth guard tripped. -/
theorem management_routes_before_depth_guard_witness :
    executeDispatch (some "create") true = DispatchOutcome.managementHandled "create" :=
  (management_routes_before_depth_guard "create" true (by decide)).1

/-- C10: a result file whose truthy sessionId differs from the current
session id, or which carries no truthy sessionId and whose truthy cwd
differs from the registry base cwd, produces no completion event and is
not deleted, so the file remains in the results directory; a deletion
only ever happens when the result was dispatched or suppressed as a
dedup duplicate. -/
theorem handleResult_stale_kept (sessionId cwd currentSessionId : Option String)
    (baseCwd : String) (dedupSeen : Bool) :
    (∀ sid, sessionId = some sid → sid ≠ "" → sessionId ≠ currentSessionId →
      handleResultModel sessionId cwd currentSessionId baseCwd dedupSeen = (false, false)) ∧
    (∀ w, truthy sessionId = false → cwd = some w → w ≠ "" → w ≠ baseCwd →
      handleResultModel sessionId cwd currentSessionId baseCwd dedupSeen = (false, false)) ∧
    ((handleResultModel sessionId cwd currentSessionId baseCwd dedupSeen).2 = true →
      (handleResultModel sessionId cwd currentSessionId baseCwd dedupSeen).1 = true ∨
        dedupSeen = true) := by
  refine ⟨?_, ?_, ?_⟩
  · intro sid hsid hne hdiff
    subst hsid
    unfold handleResultModel
    have ht : truthy (some sid) = true := by simp [truthy, hne]
    simp [ht, hdiff]
  · intro w hf hcwd hne hdiff
    subst hcwd
    unfold handleResultModel
    have ht : truthy (some w) = true := by simp [truthy, hne]
    have hcw : (some w : Option String) ≠ some baseCwd := by
      intro h; exact hdiff (Option.some.inj h)
    simp [hf, ht, hcw]
  · intro h2
    unfold handleResultModel at h2 ⊢
    split_ifs at h2 ⊢ with hA hB hC
    all_goals simp_all

/-- Witness for C10: a result from another session is neither
dispatched nor deleted. -/
theorem handleResult_stale_kept_witness :
    handleResultModel (some "s1") none (some "s2") "/w" false = (false, false) :=
  (handleResult_stale_kept (some "s1") none (some "s2") "/w" false).1
    "s1" rfl (by decide) (by decide)

/-- A list is a prefix of itself followed by anything, in executable
form. -/
theorem isPrefixOf_self_append (p z : List Char) : p.isPrefixOf (p ++ z) = true := by
  induction p with
  | nil => simp [List.isPrefixOf]
  | cons c p ih => simp [List.isPrefixOf, ih]

/-- A pattern that starts the right part of an append is a substring of
the whole. -/
theorem containsSub_append_right (pat y : List Char)
    (h : pat.isPrefixOf y = true) :
    ∀ x : List Char, containsSub (x ++ y) pat = true := by
  intro x
  induction x with
  | nil =>
    rw [List.nil_append]
    cases y with
    | nil =>
      cases pat with
      | nil => rfl
      | cons c p => simp [List.isPrefixOf] at h
    | cons c rest => rw [containsSub, h]; rfl
  | cons c x ih => rw [List.cons_append, containsSub, ih]; simp

/-- An error message of the shape head, agent, tail contains the agent
name as a substring. -/
theorem containsSub_unknown (p a suffix : String) :
    containsSub (p ++ a ++ suffix).toList a.toList = true := by
  rw [String.append_assoc]
  show containsSub (p.toList ++ (a.toList ++ suffix.toList)) a.toList = true
  exact containsSub_append_right _ _ (isPrefixOf_self_append _ _) _

/-- The parallel validation loop returns none exactly when every task
agent is known. -/
theorem firstUnknownPar_none_iff (known : List String) :
    ∀ ts, firstUnknownPar known ts = none ↔ ∀ a ∈ ts, known.contains a = true := by
  intro ts
  induction ts with
  | nil =>
    constructor
    · intro _ a ha; cases ha
    · intro _; rfl
  | cons a rest ih =>
    rw [firstUnknownPar]
    by_cases h : known.contains a = true
    · rw [if_pos h]
      constructor
      · intro hnone b hb
        rcases List.mem_cons.mp hb with rfl | hb
        · exact h
        · exact ih.mp hnone b hb
      · intro hall
        exact ih.mpr (fun b hb => hall b (List.mem_cons_of_mem _ hb))
    · rw [if_neg h]
      constructor
      · intro hx; cases hx
      · intro hall
        exact absurd (hall a (List.mem_cons_self a rest)) h

/-- The parallel validation loop names a referenced unknown agent. -/
theorem firstUnknownPar_some (known : List String) :
    ∀ ts msg, firstUnknownPar known ts = some msg →
      ∃ a ∈ ts, known.contains a = false ∧ msg = "Unknown agent: " ++ a := by
  intro ts
  induction ts with
  | nil => intro msg h; simp [firstUnknownPar] at h
  | cons a rest ih =>
    intro msg h
    rw [firstUnknownPar] at h
    by_cases hc : known.contains a = true
    · rw [if_pos hc] at h
      obtain ⟨b, hb, hf, hmsg⟩ := ih msg h
      exact ⟨b, List.mem_cons_of_mem _ hb, hf, hmsg⟩
    · rw [if_neg hc] at h
      injection h with h
      have hc2 : known.contains a = false := by
        cases hcv : known.contains a
        · rfl
        · exact absurd hcv hc
      exact ⟨a, List.mem_cons_self a rest, hc2, h.symm⟩

/-- The chain validation loop returns none exactly when every agent of
every step is known. -/
theorem firstUnknownChain_none_iff (known : List String) :
    ∀ steps i, firstUnknownChain known i steps = none ↔
      ∀ step ∈ steps, ∀ a ∈ getStepAgents step, known.contains a = true := by
  intro steps
  induction steps with
  | nil => intro i; simp [firstUnknownChain]
  | cons s rest ih =>
    intro i
    rw [firstUnknownChain]
    cases hf : (getStepAgents s).find? (fun a => !(known.contains a)) with
    | some a =>
      have ha : a ∈ getStepAgents s := List.mem_of_find?_eq_some hf
      have hc : known.contains a = false := by
        have hpa := List.find?_some hf
        cases hcv : known.contains a
        · rfl
        · rw [hcv] at hpa; cases hpa
      constructor
      · intro h; cases h
      · intro h
        have hx := h s (List.mem_cons_self s rest) a ha
        rw [hc] at hx
        cases hx
    | none =>
      have hall : ∀ a ∈ getStepAgents s, known.contains a = true := by
        intro a ha
        have hna := List.find?_eq_none.mp hf a ha
        cases hcv : known.contains a
        · exact absurd (by rw [hcv]; rfl) hna
        · rfl
      rw [ih (i + 1)]
      constructor
      · intro h step hstep a ha
        rcases List.mem_cons.mp hstep with rfl | hstep
        · exact hall a ha
        · exact h step hstep a ha
      · intro h step hstep a ha
        exact h step (List.mem_cons_of_mem _ hstep) a ha

/-- The chain validation loop names a referenced unknown agent, with a
one-based step suffix in the message. -/
theorem firstUnknownChain_some (known : List String) :
    ∀ steps i msg, firstUnknownChain known i steps = some msg →
      ∃ step ∈ steps, ∃ a ∈ getStepAgents step, known.contains a = false ∧
        ∃ k : Nat, msg = "Unknown agent: " ++ a ++ (" (step " ++ toString k ++ ")") := by
  intro steps
  induction steps with
  | nil => intro i msg h; simp [firstUnknownChain] at h
  | cons s rest ih =>
    intro i msg h
    rw [firstUnknownChain] at h
    cases hf : (getStepAgents s).find? (fun a => !(known.contains a)) with
    | some a =>
      rw [hf] at h
      injection h with h
      refine ⟨s, List.mem_cons_self s rest, a, List.mem_of_find?_eq_some hf, ?_, ?_⟩
      · have hpa := List.find?_some hf
        cases hcv : known.contains a
        · rfl
        · rw [hcv] at hpa; cases hpa
      · refine ⟨i + 1, ?_⟩
        rw [← h]
        simp [String.append_assoc]
    | none =>
      rw [hf] at h
      obtain ⟨step, hstep, a, ha, hc, k, hmsg⟩ := ih (i + 1) msg h
      exact ⟨step, List.mem_cons_of_mem _ hstep, a, ha, hc, k, hmsg⟩

/-- C6 counterexample: with available agents scout and planner, the
synchronous single-mode validation error for the unknown agent ghost is
the message "Unknown agent: ghost" (and the background single branch
produces the even shorter "Unknown: ghost"); neither contains any of
the available agent names, refuting the claim that the message includes
the list of available names. -/
theorem unknown_agent_message_counterexample :
    validateAgentsMsg ["scout", "planner"] (.single "ghost" false)
      = some "Unknown agent: ghost" ∧
    validateAgentsMsg ["scout", "planner"] (.single "ghost" true)
      = some "Unknown: ghost" ∧
    containsSub "Unknown agent: ghost".toList "scout".toList = false ∧
    containsSub "Unknown agent: ghost".toList "planner".toList = false ∧
    containsSub "Unknown: ghost".toList "scout".toList = false ∧
    containsSub "Unknown: ghost".toList "planner".toList = false := by
  decide

/-- C6 amended: whenever an execution request references an unknown
agent name, the dispatcher returns a validation error (not an
exception) that names the offending agent: the message is exactly
"Unknown agent: " plus the name in the synchronous single and parallel
paths, the same plus a one-based step suffix in the chain path, and
"Unknown: " plus the name in the background single branch; the message
contains the missing agent name, not the list of available agent names;
and no error is produced when every referenced agent exists. -/
theorem validateAgents_amended (known : List String) (req : ExecReq) :
    (validateAgentsMsg known req = none ↔
      ∀ a ∈ refAgents req, known.contains a = true) ∧
    (∀ msg, validateAgentsMsg known req = some msg →
      ∃ a ∈ refAgents req, known.contains a = false ∧
        containsSub msg.toList a.toList = true ∧
        (msg = "Unknown agent: " ++ a ∨ msg = "Unknown: " ++ a ∨
          ∃ k : Nat, msg = "Unknown agent: " ++ a ++ (" (step " ++ toString k ++ ")"))) := by
  cases req with
  | single a isAsync =>
    constructor
    · rw [validateAgentsMsg]
      by_cases h : known.contains a = true
      · rw [if_pos h]
        constructor
        · intro _ b hb
          rcases List.mem_cons.mp hb with rfl | hb
          · exact h
          · cases hb
        · intro _; rfl
      · rw [if_neg h]
        constructor
        · intro hx
          cases isAsync with
          | true => rw [if_pos rfl] at hx; cases hx
          | false => rw [if_neg (by simp)] at hx; cases hx
        · intro hall
          exact absurd (hall a (List.mem_cons_self a [])) h
    · intro msg hmsg
      rw [validateAgentsMsg] at hmsg
      by_cases h : known.contains a = true
      · rw [if_pos h] at hmsg; cases hmsg
      · rw [if_neg h] at hmsg
        have hc2 : known.contains a = false := by
          cases hcv : known.contains a
          · rfl
          · exact absurd hcv h
        cases isAsync with
        | true =>
          rw [if_pos rfl] at hmsg
          injection hmsg with hmsg
          refine ⟨a, List.mem_cons_self a [], hc2, ?_, Or.inr (Or.inl hmsg.symm)⟩
          rw [← hmsg]
          have hcs := containsSub_unknown "Unknown: " a ""
          rw [String.append_empty] at hcs
          exact hcs
        | false =>
          rw [if_neg (by simp)] at hmsg
          injection hmsg with hmsg
          refine ⟨a, List.mem_cons_self a [], hc2, ?_, Or.inl hmsg.symm⟩
          rw [← hmsg]
          have hcs := containsSub_unknown "Unknown agent: " a ""
          rw [String.append_empty] at hcs
          exact hcs
  | parallel ts =>
    constructor
    · exact firstUnknownPar_none_iff known ts
    · intro msg hmsg
      obtain ⟨a, ha, hc, rfl⟩ := firstUnknownPar_some known ts msg hmsg
      refine ⟨a, ha, hc, ?_, Or.inl rfl⟩
      have hcs := containsSub_unknown "Unknown agent: " a ""
      rw [String.append_empty] at hcs
      exact hcs
  | chain steps =>
    constructor
    · rw [show validateAgentsMsg known (.chain steps) = firstUnknownChain known 0 steps from rfl]
      rw [firstUnknownChain_none_iff known steps 0]
      constructor
      · intro h a ha
        simp only [refAgents, List.mem_flatten, List.mem_map] at ha
        obtain ⟨l, ⟨step, hstep, rfl⟩, hal⟩ := ha
        exact h step hstep a hal
      · intro h step hstep a ha
        refine h a ?_
        simp only [refAgents, List.mem_flatten, List.mem_map]
        exact ⟨getStepAgents step, ⟨step, hstep, rfl⟩, ha⟩
    · intro msg hmsg
      obtain ⟨step, hstep, a, ha, hc, k, hmsg2⟩ :=
        firstUnknownChain_some known steps 0 msg hmsg
      refine ⟨a, ?_, hc, ?_, Or.inr (Or.inr ⟨k, hmsg2⟩)⟩
      · simp only [refAgents, List.mem_flatten, List.mem_map]
        exact ⟨getStepAgents step, ⟨step, hstep, rfl⟩, ha⟩
      · rw [hmsg2]
        exact containsSub_unknown "Unknown agent: " a (" (step " ++ toString k ++ ")")

/-- Witness for the C6 amended theorem: a background single request for
the unknown agent ghost errors with the short message naming ghost. -/
theorem validateAgents_amended_witness :
    ∃ a ∈ refAgents (.single "ghost" true),
      ["scout", "planner"].contains a = false ∧
      containsSub "Unknown: ghost".toList a.toList = true ∧
      ("Unknown: ghost" = "Unknown agent: " ++ a ∨
        "Unknown: ghost" = "Unknown: " ++ a ∨
        ∃ k : Nat, "Unknown: ghost" = "Unknown agent: " ++ a ++ (" (step " ++ toString k ++ ")")) :=
  (validateAgents_amended ["scout", "planner"] (.single "ghost" true)).2
    "Unknown: ghost" (by decide)

/-- The clamped concurrency bound is always at least one. -/
theorem safeLimit_pos (l : Option Int) : 1 ≤ safeLimit l := by
  cases l with
  | none => exact le_refl 1
  | some k =>
    rw [safeLimit]
    split
    · exact le_refl 1
    · have h1 : (1 : Int) ≤ max 1 k := le_max_left 1 k
      omega

/-- A zero or negative limit clamps to one. -/
theorem safeLimit_of_nonpos {k : Int} (hk : k ≤ 0) : safeLimit (some k) = 1 := by
  rw [safeLimit]
  split
  · rfl
  · rename_i h
    have hmax : max 1 k = 1 := max_eq_left (by omega)
    rw [hmax]
    rfl

/-- A positive limit is kept. -/
theorem safeLimit_of_pos {k : Int} (hk : 0 < k) : safeLimit (some k) = k.toNat := by
  rw [safeLimit]
  split
  · rename_i h; omega
  · have hmax : max 1 k = k := max_eq_right (by omega)
    rw [hmax]

/-- The worker-pool invariant holds initially. -/
theorem mcInv_init {T R : Type} (items : List T) (f : Nat → T → R) (W : Nat)
    (hW : items.length ≠ 0 → 0 < W) : MCInv items f W (mcInit R items.length W) := by
  refine ⟨by simp [mcInit], by simp [mcInit], ?_, by simp [mcInit], ?_, ?_, by simp [mcInit], ?_⟩
  · intro i hi
    simp [mcInit] at hi
  · intro i r h
    simp only [mcInit, List.getElem?_replicate] at h
    split at h
    · cases h
    · cases h
  · intro i hi
    simp [mcInit] at hi
  · rcases Nat.eq_zero_or_pos items.length with h | h
    · exact Or.inl (by simp [mcInit, h])
    · refine Or.inr ?_
      simp only [mcInit]
      have := hW (by omega)
      simpa using this

/-- One scheduler action preserves the worker-pool invariant. -/
theorem mcInv_apply {T R : Type} {items : List T} {f : Nat → T → R} {W : Nat}
    {s s2 : MCState R} {a : MCAct}
    (h : mcApply items f s a = some s2) (hs : MCInv items f W s) :
    MCInv items f W s2 := by
  obtain ⟨hlen, hnext, hfl, hnodup, hvals, hfilled, hbound, hlive⟩ := hs
  cases a with
  | start =>
    rw [mcApply] at h
    split at h
    · rename_i hc
      obtain ⟨hidle, hlt⟩ := hc
      injection h with h
      subst h
      refine ⟨hlen, by dsimp only; omega, ?_, ?_, hvals, ?_, ?_, ?_⟩
      · intro i hi
        rcases List.mem_cons.mp hi with rfl | hi
        · exact Nat.lt_succ_self _
        · exact Nat.lt_succ_of_lt (hfl i hi)
      · exact List.nodup_cons.mpr ⟨fun hm => Nat.lt_irrefl _ (hfl _ hm), hnodup⟩
      · intro i hi
        rcases Nat.lt_succ_iff_lt_or_eq.mp hi with hi | rfl
        · rcases hfilled i hi with hin | hset
          · exact Or.inl (List.mem_cons_of_mem _ hin)
          · exact Or.inr hset
        · exact Or.inl (List.mem_cons_self _ _)
      · dsimp only
        simp only [List.length_cons]
        omega
      · refine Or.inr ?_
        dsimp only
        simp only [List.length_cons]
        omega
    · cases h
  | finish i =>
    rw [mcApply] at h
    split at h
    · rename_i hmem
      cases hitem : items[i]? with
      | none => rw [hitem] at h; cases h
      | some t =>
        rw [hitem] at h
        injection h with h
        subst h
        have hlti : i < s.next := hfl i hmem
        have hltlen : i < s.results.length := by omega
        have herase : (s.inFlight.erase i).length = s.inFlight.length - 1 :=
          List.length_erase_of_mem hmem
        have hposl : 0 < s.inFlight.length :=
          List.length_pos.mpr (List.ne_nil_of_mem hmem)
        refine ⟨by simpa using hlen, hnext, ?_, hnodup.erase i, ?_, ?_, ?_, ?_⟩
        · intro j hj
          exact hfl j (List.erase_subset i s.inFlight hj)
        · intro j r hj
          rw [List.getElem?_set] at hj
          by_cases hij : i = j
          · rw [if_pos hij, if_pos (hij ▸ hltlen)] at hj
            injection hj with hj
            injection hj with hj
            exact ⟨t, hij ▸ hitem, hij ▸ hj.symm⟩
          · rw [if_neg hij] at hj
            exact hvals j r hj
        · intro j hj
          by_cases hij : i = j
          · subst hij
            refine Or.inr ⟨f i t, ?_⟩
            rw [List.getElem?_set, if_pos rfl, if_pos hltlen]
          · rcases hfilled j hj with hin | ⟨r, hr⟩
            · exact Or.inl ((List.mem_erase_of_ne (fun he => hij he.symm)).mpr hin)
            · refine Or.inr ⟨r, ?_⟩
              rw [List.getElem?_set, if_neg hij]
              exact hr
        · dsimp only
          omega
        · refine Or.inr ?_
          dsimp only
          omega
    · cases h
  | exit =>
    rw [mcApply] at h
    split at h
    · rename_i hc
      injection h with h
      subst h
      exact ⟨hlen, hnext, hfl, hnodup, hvals, hfilled, by dsimp only; omega, Or.inl hc.2⟩
    · cases h

/-- Running any action sequence preserves the worker-pool invariant. -/
theorem mcRun_inv {T R : Type} {items : List T} {f : Nat → T → R} {W : Nat} :
    ∀ {acts : List MCAct} {s s2 : MCState R},
      mcRun items f acts s = some s2 → MCInv items f W s → MCInv items f W s2 := by
  intro acts
  induction acts with
  | nil =>
    intro s s2 h hs
    rw [mcRun] at h
    injection h with h
    exact h ▸ hs
  | cons a acts ih =>
    intro s s2 h hs
    rw [mcRun] at h
    cases ha : mcApply items f s a with
    | none => rw [ha] at h; cases h
    | some s1 =>
      rw [ha] at h
      exact ih h (mcInv_apply ha hs)

/-- Every state reached by mapConcurrent satisfies the invariant with
the spawned pool size. -/
theorem mapConcurrentRun_inv {T R : Type} {limit : Option Int} {items : List T}
    {f : Nat → T → R} {acts : List MCAct} {s : MCState R}
    (h : mapConcurrentRun limit items f acts = some s) :
    MCInv items f (min (safeLimit limit) items.length) s := by
  refine mcRun_inv h (mcInv_init items f _ ?_)
  intro hne
  have h1 := safeLimit_pos limit
  have h2 : 0 < items.length := Nat.pos_of_ne_zero hne
  exact lt_min (by omega) h2

/-- In a terminal state satisfying the invariant, every item has its
result in its own slot. -/
theorem mc_terminal_results {T R : Type} {items : List T} {f : Nat → T → R}
    {W : Nat} {s : MCState R}
    (hinv : MCInv items f W s) (ht : mcTerminal s) :
    s.results.length = items.length ∧
    ∀ (i : Nat) (t : T), items[i]? = some t →
      s.results[i]? = some (some (f i t)) := by
  obtain ⟨hlen, hnext, hfl, hnodup, hvals, hfilled, hbound, hlive⟩ := hinv
  obtain ⟨hidle, hinf⟩ := ht
  have hall : items.length ≤ s.next := by
    rcases hlive with h | h
    · exact h
    · rw [hidle, hinf] at h
      simp at h
  refine ⟨hlen, ?_⟩
  intro i t hit
  have hilen : i < items.length := by
    rcases List.getElem?_eq_some_iff.mp hit with ⟨hh, _⟩
    exact hh
  rcases hfilled i (by omega) with hin | ⟨r, hr⟩
  · rw [hinf] at hin
    cases hin
  · obtain ⟨t2, ht2, hrt⟩ := hvals i r hr
    rw [hit] at ht2
    injection ht2 with ht2
    rw [hr, hrt, ht2]

/-- C7: mapConcurrent clamps zero, negative and NaN concurrency limits
to one, processing the items strictly sequentially (never more than one
index in flight), keeps at most the given bound in flight for positive
limits, and on completion still produces a result for every item. -/
theorem mapConcurrent_clamp_and_bound {T R : Type} (limit : Option Int)
    (items : List T) (f : Nat → T → R) (acts : List MCAct) (s : MCState R)
    (hrun : mapConcurrentRun limit items f acts = some s) :
    s.inFlight.length ≤ safeLimit limit ∧
    ((limit = none ∨ ∃ k, limit = some k ∧ k ≤ 0) → s.inFlight.length ≤ 1) ∧
    (∀ k, limit = some k → 0 < k → s.inFlight.length ≤ k.toNat) ∧
    (mcTerminal s → s.results.length = items.length ∧
      ∀ (i : Nat) (t : T), items[i]? = some t →
        s.results[i]? = some (some (f i t))) := by
  have hinv := mapConcurrentRun_inv hrun
  have hbound := hinv.2.2.2.2.2.2.1
  have hfl : s.inFlight.length ≤ safeLimit limit := by
    have := min_le_left (safeLimit limit) items.length
    omega
  refine ⟨hfl, ?_, ?_, fun ht => mc_terminal_results hinv ht⟩
  · rintro (rfl | ⟨k, rfl, hk⟩)
    · exact hfl
    · rw [safeLimit_of_nonpos hk] at hfl
      exact hfl
  · intro k hk hpos
    subst hk
    rw [safeLimit_of_pos hpos] at hfl
    exact hfl

/-- Witness for C7: limit zero on three items runs them one at a time
to completion. -/
theorem mapConcurrent_clamp_and_bound_witness :
    mapConcurrentRun (some 0) [10, 20, 30] (fun _ x => x * 2)
      [MCAct.start, .finish 0, .start, .finish 1, .start, .finish 2, .exit]
      = some ⟨3, [], 0, [some 20, some 40, some 60]⟩ ∧
    (⟨3, [], 0, [some 20, some 40, some 60]⟩ : MCState Nat).inFlight.length ≤ 1 ∧
    ([10, 20, 30] : List Nat).length = 3 := by
  refine ⟨by decide, ?_, rfl⟩
  exact (mapConcurrent_clamp_and_bound (some 0) [10, 20, 30] (fun _ x => x * 2)
    [MCAct.start, .finish 0, .start, .finish 1, .start, .finish 2, .exit]
    ⟨3, [], 0, [some 20, some 40, some 60]⟩ (by decide)).2.1
    (Or.inr ⟨0, rfl, le_refl 0⟩)

/-- C5: a top-level parallel request within the parallel limit produces
one result slot per task and, in every completed schedule, the result
in slot i is the step result of the agent of task i, so results are
assembled in input order regardless of completion order. -/
theorem runParallel_results_in_input_order (exitOf : Nat → Option Int)
    (tasks : List PTask) (acts : List MCAct) (s : MCState SingleResultM)
    (hlimit : tasks.length ≤ MAX_PARALLEL)
    (hrun : runParallelExec exitOf tasks acts = some s)
    (hterm : mcTerminal s) :
    s.results.length = tasks.length ∧
    (∀ (i : Nat) (t : PTask), tasks[i]? = some t →
      s.results[i]? = some (some ⟨t.agent, exitOf i⟩)) ∧
    (∀ (i : Nat) (t : PTask) (r : SingleResultM), tasks[i]? = some t →
      s.results[i]? = some (some r) → r.agent = t.agent) := by
  have hmain := mapConcurrent_clamp_and_bound (some MAX_CONCURRENCY) tasks
    (runSyncModel exitOf) acts s hrun
  obtain ⟨hlen, hres⟩ := hmain.2.2.2 hterm
  refine ⟨hlen, ?_, ?_⟩
  · intro i t hit
    exact hres i t hit
  · intro i t r hit hr
    have := hres i t hit
    rw [this] at hr
    injection hr with hr
    injection hr with hr
    rw [← hr]
    rfl

/-- When no assistant text message exists, every message is non-text. -/
theorem lastTextIdxR_none :
    ∀ {ms : List Message}, lastTextIdxR ms = none →
      ∀ (k : Nat) (mk : Message), ms[k]? = some mk → isTextMsg mk = false := by
  intro ms
  induction ms with
  | nil => intro _ k mk h; cases h
  | cons m rest ih =>
    intro h k mk hk
    rw [lastTextIdxR] at h
    cases hr : lastTextIdxR rest with
    | some j => rw [hr] at h; cases h
    | none =>
      rw [hr] at h
      by_cases ht : isTextMsg m = true
      · rw [if_pos ht] at h; cases h
      · cases k with
        | zero =>
          rw [List.getElem?_cons_zero] at hk
          injection hk with hk
          subst hk
          cases hmv : isTextMsg m
          · rfl
          · exact absurd hmv ht
        | succ k => exact ih hr k mk (by simpa using hk)

/-- The last-text index points at a text message and everything after
it is non-text. -/
theorem lastTextIdxR_some :
    ∀ {ms : List Message} {i : Nat}, lastTextIdxR ms = some i →
      (∃ mi, ms[i]? = some mi ∧ isTextMsg mi = true) ∧
      ∀ (k : Nat) (mk : Message), ms[k]? = some mk → i < k → isTextMsg mk = false := by
  intro ms
  induction ms with
  | nil => intro i h; cases h
  | cons m rest ih =>
    intro i h
    rw [lastTextIdxR] at h
    cases hr : lastTextIdxR rest with
    | some j =>
      rw [hr] at h
      injection h with h
      subst h
      obtain ⟨⟨mi, hmi, hti⟩, hafter⟩ := ih hr
      constructor
      · exact ⟨mi, by simpa using hmi, hti⟩
      · intro k mk hk hlt
        cases k with
        | zero => omega
        | succ k =>
          exact hafter k mk (by simpa using hk) (by omega)
    | none =>
      rw [hr] at h
      by_cases ht : isTextMsg m = true
      · rw [if_pos ht] at h
        injection h with h
        subst h
        constructor
        · exact ⟨m, by simp, ht⟩
        · intro k mk hk hlt
          cases k with
          | zero => omega
          | succ k => exact lastTextIdxR_none hr k mk (by simpa using hk)
      · rw [if_neg ht] at h
        cases h

/-- A list with no error-bearing message yields no first error. -/
theorem firstErrIn_eq_none :
    ∀ {l : List Message}, firstErrIn l = none ↔
      ∀ (j : Nat) (m : Message), l[j]? = some m → msgErr m = none := by
  intro l
  induction l with
  | nil =>
    constructor
    · intro _ j m h; cases h
    · intro _; rfl
  | cons m rest ih =>
    rw [firstErrIn]
    cases he : msgErr m with
    | some e =>
      constructor
      · intro h; cases h
      · intro h
        have h0 := h 0 m (by simp)
        rw [he] at h0
        cases h0
    | none =>
      rw [ih]
      constructor
      · intro h j mj hj
        cases j with
        | zero =>
          rw [List.getElem?_cons_zero] at hj
          injection hj with hj
          subst hj
          exact he
        | succ j => exact h j mj (by simpa using hj)
      · intro h j mj hj
        exact h (j + 1) mj (by simpa using hj)

/-- A first error comes from some error-bearing message of the list. -/
theorem firstErrIn_some_exists :
    ∀ {l : List Message} {e : ErrInfo}, firstErrIn l = some e →
      ∃ (j : Nat) (m : Message), l[j]? = some m ∧ msgErr m = some e := by
  intro l
  induction l with
  | nil => intro e h; cases h
  | cons m rest ih =>
    intro e h
    rw [firstErrIn] at h
    cases he : msgErr m with
    | some e2 =>
      rw [he] at h
      injection h with h
      subst h
      exact ⟨0, m, by simp, he⟩
    | none =>
      rw [he] at h
      obtain ⟨j, mj, hj, hje⟩ := ih h
      exact ⟨j + 1, mj, by simpa using hj, hje⟩

/-- C2: the detection heuristic reports an error exactly when the
stream contains an error-bearing tool result (isError or a fatal
pattern) occurring after every assistant message with non-whitespace
text — in particular, when such an error exists and no non-blank
assistant text message exists at all; errors before the last non-blank
assistant text message never set hasError. -/
theorem detectSubagentError_hasError_iff (ms : List Message) :
    (detectSubagentError ms).hasError = true ↔ specHasError ms := by
  rw [detectSubagentError]
  cases hL : lastTextIdxR ms with
  | none =>
    cases hF : firstErrIn ms with
    | none =>
      constructor
      · intro h; cases h
      · rintro ⟨j, m, hj, herr, _⟩
        rw [firstErrIn_eq_none.mp hF j m hj] at herr
        cases herr
    | some e =>
      constructor
      · intro _
        obtain ⟨j, m, hj, hje⟩ := firstErrIn_some_exists hF
        refine ⟨j, m, hj, by rw [hje]; rfl, ?_⟩
        intro k mk hk htext
        rw [lastTextIdxR_none hL k mk hk] at htext
        cases htext
      · intro _; rfl
  | some i =>
    obtain ⟨⟨mi, hmi, hti⟩, hafter⟩ := lastTextIdxR_some hL
    cases hF : firstErrIn (ms.drop (i + 1)) with
    | none =>
      constructor
      · intro h; cases h
      · rintro ⟨j, m, hj, herr, hall⟩
        have hij : i < j := hall i mi hmi hti
        have hdrop : (ms.drop (i + 1))[j - (i + 1)]? = some m := by
          rw [List.getElem?_drop]
          have : i + 1 + (j - (i + 1)) = j := by omega
          rw [this]
          exact hj
        rw [firstErrIn_eq_none.mp hF _ m hdrop] at herr
        cases herr
    | some e =>
      constructor
      · intro _
        obtain ⟨j2, m, hj2, hje⟩ := firstErrIn_some_exists hF
        rw [List.getElem?_drop] at hj2
        refine ⟨i + 1 + j2, m, hj2, by rw [hje]; rfl, ?_⟩
        intro k mk hk htext
        by_cases hik : i < k
        · rw [hafter k mk hk hik] at htext
          cases htext
        · omega
      · intro _; rfl

/-- Witness for C5: two tasks under an out-of-order completion schedule
still deliver results in input order. -/
theorem runParallel_results_in_input_order_witness :
    ((⟨2, [], 0, [some ⟨"a", some 0⟩, some ⟨"b", some 2⟩]⟩ :
        MCState SingleResultM).results.length = 2) ∧
    ((⟨2, [], 0, [some ⟨"a", some 0⟩, some ⟨"b", some 2⟩]⟩ :
        MCState SingleResultM).results[0]? = some (some ⟨"a", some 0⟩)) := by
  have h := runParallel_results_in_input_order
    (fun i => if i = 0 then some 0 else some 2)
    [⟨"a"⟩, ⟨"b"⟩]
    [MCAct.start, .start, .finish 1, .finish 0, .exit, .exit]
    ⟨2, [], 0, [some ⟨"a", some 0⟩, some ⟨"b", some 2⟩]⟩
    (by decide) (by decide) ⟨rfl, rfl⟩
  exact ⟨h.1, h.2.1 0 ⟨"a"⟩ rfl⟩

/-- The trailing concrete write block fixes the last status state. -/
theorem lastStatus_append_tail (A : List RunEv) (T : RunState) :
    lastStatus (A ++ [RunEv.writeStatus T, .appendEvents, .writeLog, .writeResult])
      = some T := by
  rw [lastStatus, List.foldl_append]
  rfl

/-- The result file is not written inside a task block. -/
theorem wr_not_in_taskBlock : RunEv.writeResult ∉ taskBlock := by decide

/-- The result file is not written by a sequential step. -/
theorem wr_not_in_seqStepEvents : RunEv.writeResult ∉ seqStepEvents := by decide

/-- The result file is not written inside a parallel group. -/
theorem wr_not_in_groupEvents (hs : Bool) (sched : List Nat) :
    RunEv.writeResult ∉ groupEvents hs sched := by
  intro h
  rw [groupEvents] at h
  rcases List.mem_append.mp h with h | h
  · rcases List.mem_append.mp h with h | h
    · rcases List.mem_append.mp h with h | h
      · exact absurd h (by decide)
      · rcases List.mem_flatten.mp h with ⟨b, hb, hmem⟩
        rcases List.mem_map.mp hb with ⟨t, _, rfl⟩
        exact wr_not_in_taskBlock hmem
    · cases hs with
      | false => cases h
      | true => exact absurd h (by decide)
  · exact absurd h (by decide)

/-- The result file is never written inside the step loop. -/
theorem wr_not_in_loop (exitOf : Nat → Option Int) (hs : Bool)
    (schedOf : Nat → List Nat) :
    ∀ (steps : List RunnerStep) (fi : Nat),
      RunEv.writeResult ∉ (loopEvents exitOf hs schedOf fi steps).1 := by
  intro steps
  induction steps with
  | nil => intro fi h; cases h
  | cons s rest ih =>
    intro fi h
    cases s with
    | seq a =>
      rw [loopEvents] at h
      by_cases hx : exitOf fi = some 0
      · rw [if_pos hx] at h
        rcases List.mem_append.mp h with h | h
        · exact wr_not_in_seqStepEvents h
        · exact ih (fi + 1) h
      · rw [if_neg hx] at h
        exact wr_not_in_seqStepEvents h
    | par as ff =>
      rw [loopEvents] at h
      by_cases hx : groupHardFail exitOf fi (schedOf fi) = true
      · rw [if_pos hx] at h
        exact wr_not_in_groupEvents hs (schedOf fi) h
      · rw [if_neg hx] at h
        rcases List.mem_append.mp h with h | h
        · exact wr_not_in_groupEvents hs (schedOf fi) h
        · exact ih (fi + as.length) h

/-- C1: in every background run and under every group schedule, at any
point of the run at which the result file has been written, the most
recent status.json write carries a terminal state (complete or failed):
the terminal status write strictly precedes the result-file write and
no status write comes between them. -/
theorem runSubagent_result_after_terminal_status (steps : List RunnerStep)
    (exitOf : Nat → Option Int) (hasSession : Bool) (schedOf : Nat → List Nat)
    (n : Nat)
    (h : RunEv.writeResult ∈ (runSubagentTrace steps exitOf hasSession schedOf).take n) :
    ∃ st, lastStatus ((runSubagentTrace steps exitOf hasSession schedOf).take n)
        = some st ∧ (st = RunState.complete ∨ st = RunState.failed) := by
  have hdecomp : runSubagentTrace steps exitOf hasSession schedOf
      = ([RunEv.writeStatus .running, .appendEvents]
          ++ (loopEvents exitOf hasSession schedOf 0 steps).1)
        ++ [RunEv.writeStatus
              (if (loopEvents exitOf hasSession schedOf 0 steps).2 then .complete else .failed),
            .appendEvents, .writeLog, .writeResult] := by
    rw [runSubagentTrace]
  set p1 := (loopEvents exitOf hasSession schedOf 0 steps).1 with hp1
  set T := (if (loopEvents exitOf hasSession schedOf 0 steps).2
    then RunState.complete else RunState.failed) with hT
  have hwrpre : RunEv.writeResult ∉
      (([RunEv.writeStatus .running, .appendEvents] ++ p1)
        ++ [RunEv.writeStatus T, .appendEvents, .writeLog]) := by
    intro hmem
    rcases List.mem_append.mp hmem with hmem | hmem
    · rcases List.mem_append.mp hmem with hmem | hmem
      · exact absurd hmem (by decide)
      · exact wr_not_in_loop exitOf hasSession schedOf steps 0 hmem
    · simp only [List.mem_cons, List.not_mem_nil, or_false] at hmem
      rcases hmem with hmem | hmem | hmem <;> cases hmem
  have hsplit : runSubagentTrace steps exitOf hasSession schedOf
      = (([RunEv.writeStatus .running, .appendEvents] ++ p1)
          ++ [RunEv.writeStatus T, .appendEvents, .writeLog]) ++ [RunEv.writeResult] := by
    rw [hdecomp]
    simp [List.append_assoc]
  set pre := (([RunEv.writeStatus .running, .appendEvents] ++ p1)
    ++ [RunEv.writeStatus T, .appendEvents, .writeLog]) with hpre
  by_cases hn : n ≤ pre.length
  · exfalso
    rw [hsplit, List.take_append_of_le_length hn] at h
    exact hwrpre (List.take_subset n pre h)
  · push_neg at hn
    have hlen : (runSubagentTrace steps exitOf hasSession schedOf).length ≤ n := by
      rw [hsplit]
      simp only [List.length_append, List.length_cons, List.length_nil]
      omega
    rw [List.take_of_length_le hlen]
    refine ⟨T, ?_, ?_⟩
    · rw [hdecomp]
      exact lastStatus_append_tail _ T
    · rw [hT]
      by_cases hok : (loopEvents exitOf hasSession schedOf 0 steps).2 = true
      · rw [if_pos hok]; exact Or.inl rfl
      · rw [if_neg hok]; exact Or.inr rfl

/-- Witness for C1: a one-step chain whose full trace contains the
result write, taken whole. -/
theorem runSubagent_result_after_terminal_status_witness :
    RunEv.writeResult ∈
      (runSubagentTrace [.seq "a"] (fun _ => some 0) false (fun _ => [])).take 20 ∧
    ∃ st, lastStatus
        ((runSubagentTrace [.seq "a"] (fun _ => some 0) false (fun _ => [])).take 20)
        = some st ∧ (st = RunState.complete ∨ st = RunState.failed) :=
  ⟨by decide,
   runSubagent_result_after_terminal_status [.seq "a"] (fun _ => some 0) false
     (fun _ => []) 20 (by decide)⟩

/-- Once aborted under fail-fast, every remaining task returns the
skipped result and no status row is touched. -/
theorem runGroupAux_aborted (exitOf : Nat → Option Int) (outOf : Nat → String)
    (endOf : Nat → Nat) :
    ∀ (l : List (Nat × String)) (rows : List StepRow),
      runGroupAux true exitOf outOf endOf l true rows
        = (l.map (fun p => skipRes p.2), rows) := by
  intro l
  induction l with
  | nil => intro rows; rfl
  | cons p rest ih =>
    intro rows
    obtain ⟨fi, a⟩ := p
    rw [runGroupAux]
    rw [if_pos (by rfl)]
    rw [ih rows]
    rfl

/-- Under fail-fast, a failing task after a successful prefix makes
every later task skipped, and only the prefix and the failing task
update their status rows. -/
theorem runGroupAux_failFast_split (exitOf : Nat → Option Int)
    (outOf : Nat → String) (endOf : Nat → Nat) :
    ∀ (pre : List (Nat × String)) (fk : Nat) (ak : String)
      (post : List (Nat × String)) (rows : List StepRow),
      (∀ p ∈ pre, exitOf p.1 = some 0) → exitOf fk ≠ some 0 →
      runGroupAux true exitOf outOf endOf (pre ++ (fk, ak) :: post) false rows
        = (pre.map (fun p => runRes exitOf outOf p.1 p.2)
            ++ runRes exitOf outOf fk ak :: post.map (fun p => skipRes p.2),
           (pre ++ [(fk, ak)]).foldl
             (fun r p => updateRow r p.1 (finishRow (exitOf p.1) (endOf p.1))) rows) := by
  intro pre
  induction pre with
  | nil =>
    intro fk ak post rows _ hfail
    rw [List.nil_append, runGroupAux]
    rw [if_neg (by simp)]
    dsimp only
    rw [Bool.false_or]
    have hdec : (decide (exitOf fk ≠ some 0) && true) = true := by
      simp [hfail]
    rw [hdec]
    rw [runGroupAux_aborted]
    rfl
  | cons p pre ih =>
    intro fk ak post rows hpre hfail
    obtain ⟨fi, a⟩ := p
    have h0 : exitOf fi = some 0 := hpre (fi, a) (List.mem_cons_self _ _)
    rw [List.cons_append, runGroupAux]
    rw [if_neg (by simp)]
    dsimp only
    rw [Bool.false_or]
    have hdec : (decide (exitOf fi ≠ some 0) && true) = false := by
      simp [h0]
    rw [hdec]
    rw [ih fk ak post _ (fun q hq => hpre q (List.mem_cons_of_mem _ hq)) hfail]
    rfl

/-- A fold of row updates leaves rows at untouched indices unchanged. -/
theorem foldl_updateRow_untouched (exitOf : Nat → Option Int) (endOf : Nat → Nat) :
    ∀ (ups : List (Nat × String)) (rows : List StepRow) (j : Nat),
      j ∉ ups.map Prod.fst →
      (ups.foldl (fun r p => updateRow r p.1 (finishRow (exitOf p.1) (endOf p.1)))
        rows)[j]? = rows[j]? := by
  intro ups
  induction ups with
  | nil => intro rows j _; rfl
  | cons p rest ih =>
    intro rows j hj
    have hj1 : j ≠ p.1 := by
      intro he
      exact hj (by rw [List.map_cons]; exact he ▸ List.mem_cons_self _ _)
    have hj2 : j ∉ rest.map Prod.fst := by
      intro he
      exact hj (by rw [List.map_cons]; exact List.mem_cons_of_mem _ he)
    rw [List.foldl_cons, ih _ j hj2]
    rw [updateRow]
    cases hr : rows[p.1]? with
    | none => rfl
    | some r =>
      rw [List.getElem?_set, if_neg (fun he => hj1 he.symm)]

/-- Marking a group running rewrites exactly the rows of the group. -/
theorem markGroupRunning_getElem (ts g0 n : Nat) (rows : List StepRow) (j : Nat)
    (h1 : g0 ≤ j) (h2 : j < g0 + n) :
    (markGroupRunning ts g0 n rows)[j]?
      = (rows[j]?).map
          (fun r => { r with status := .running, startedAt := some ts }) := by
  rw [markGroupRunning, List.getElem?_mapIdx]
  cases rows[j]? with
  | none => rfl
  | some r =>
    simp only [Option.map_some']
    have hc : (decide (g0 ≤ j) && decide (j < g0 + n)) = true := by
      simp [h1, h2]
    rw [if_pos hc]

/-- C3 counterexample: in a two-task fail-fast group whose first task
exits 2, the second task receives the skipped result with exit code
minus one and the fail-fast body, but its status.json row stays in the
running state it was given at group start, with no exit code: it never
transitions to failed with exitCode minus one. -/
theorem failFast_skip_status_counterexample :
    (runGroupModel true (fun fi => if fi = 0 then some 2 else some 0)
        (fun _ => "out") (fun _ => 5) 1 0 ["a", "b"]
        [pendingRow "a", pendingRow "b"]).1[1]? = some (skipRes "b") ∧
    (runGroupModel true (fun fi => if fi = 0 then some 2 else some 0)
        (fun _ => "out") (fun _ => 5) 1 0 ["a", "b"]
        [pendingRow "a", pendingRow "b"]).2[1]?
      = some ⟨"b", .running, some 1, none, none⟩ ∧
    (StepRow.mk "b" .running (some 1) none none).status ≠ StepStatus.failed ∧
    (StepRow.mk "b" .running (some 1) none none).exitCode ≠ some (some (-1)) := by
  decide

/-- C3 amended: in a fail-fast parallel group, once a task fails with a
non-zero exit, each later-scheduled peer receives a skipped result with
exit code minus one and the body "(skipped — fail-fast)"; the peer's
status.json row, which the group start set from pending to running, is
not updated by the skip: only the rows of the tasks that actually ran
(the successful prefix and the failing task) are finished. -/
theorem failFast_skip_amended (exitOf : Nat → Option Int) (outOf : Nat → String)
    (endOf : Nat → Nat) (pre post : List (Nat × String)) (fk : Nat) (ak : String)
    (ts g0 n : Nat) (rows0 : List StepRow)
    (hpre : ∀ p ∈ pre, exitOf p.1 = some 0) (hfail : exitOf fk ≠ some 0) :
    (runGroupAux true exitOf outOf endOf (pre ++ (fk, ak) :: post) false
        (markGroupRunning ts g0 n rows0)).1
      = pre.map (fun p => runRes exitOf outOf p.1 p.2)
          ++ runRes exitOf outOf fk ak :: post.map (fun p => skipRes p.2) ∧
    (∀ p ∈ post, p.1 ∉ pre.map Prod.fst → p.1 ≠ fk →
      (runGroupAux true exitOf outOf endOf (pre ++ (fk, ak) :: post) false
          (markGroupRunning ts g0 n rows0)).2[p.1]?
        = (markGroupRunning ts g0 n rows0)[p.1]?) ∧
    (∀ j, g0 ≤ j → j < g0 + n →
      (markGroupRunning ts g0 n rows0)[j]?
        = (rows0[j]?).map
            (fun r => { r with status := StepStatus.running, startedAt := some ts })) := by
  have hrun := runGroupAux_failFast_split exitOf outOf endOf pre fk ak post
    (markGroupRunning ts g0 n rows0) hpre hfail
  refine ⟨?_, ?_, ?_⟩
  · rw [hrun]
  · intro p hp hnpre hnfk
    rw [hrun]
    refine foldl_updateRow_untouched exitOf endOf (pre ++ [(fk, ak)]) _ p.1 ?_
    intro hmem
    rw [List.map_append, List.mem_append] at hmem
    rcases hmem with hmem | hmem
    · exact hnpre hmem
    · rcases List.mem_map.mp hmem with ⟨q, hq, hq1⟩
      rcases List.mem_cons.mp hq with rfl | hq
      · exact hnfk hq1.symm
      · cases hq
  · intro j h1 h2
    exact markGroupRunning_getElem ts g0 n rows0 j h1 h2

/-- Witness for the C3 amended theorem at a concrete two-task group. -/
theorem failFast_skip_amended_witness :
    (runGroupAux true (fun fi => if fi = 0 then some 2 else some 0)
        (fun _ => "out") (fun _ => 5) [(0, "a"), (1, "b")] false
        (markGroupRunning 1 0 2 [pendingRow "a", pendingRow "b"])).1
      = [runRes (fun fi => if fi = 0 then some 2 else some 0) (fun _ => "out") 0 "a",
         skipRes "b"] ∧
    (runGroupAux true (fun fi => if fi = 0 then some 2 else some 0)
        (fun _ => "out") (fun _ => 5) [(0, "a"), (1, "b")] false
        (markGroupRunning 1 0 2 [pendingRow "a", pendingRow "b"])).2[1]?
      = (markGroupRunning 1 0 2 [pendingRow "a", pendingRow "b"])[1]? := by
  have h := failFast_skip_amended (fun fi => if fi = 0 then some 2 else some 0)
    (fun _ => "out") (fun _ => 5) [] [(1, "b")] 0 "a" 1 0 2
    [pendingRow "a", pendingRow "b"]
    (by intro p hp; cases hp) (by decide)
  refine ⟨?_, ?_⟩
  · have h1 := h.1
    simpa using h1
  · exact h.2.1 (1, "b") (List.mem_cons_self _ _) (by simp) (by decide)

end PiSub
